import Mathlib

/-!
Verification of the OptimizationLab repository: a brute-force Traveling
Salesman solver (enumerate all orderings of intermediate cities) and a
brute-force 0/1 Knapsack solver (enumerate all subsets via bit patterns,
with a ratio-sort preprocessing step and an early-exit inner loop).

The Python sources are shallowly embedded below.  Numeric values are
modelled as rationals (the knapsack instance uses the weight 1.5);
Python's `float('inf')` initialisation of the best cost is modelled by an
`Option` that is `none` until the first candidate is evaluated, and the
`ZeroDivisionError` that the unguarded ratio sort raises on a zero weight
is modelled by an `Option` result for the ranking step.
-/

/-- Total cost of a route: the Python code computes
`np.sum(distancias[np.array(ruta[:-1]), np.array(ruta[1:])])`, i.e. the sum
of `distancias[ruta[k]][ruta[k+1]]` over all consecutive positions.
Out-of-range accesses default to 0 through `getD`, whereas numpy raises an
IndexError; this is exact for square matrices (where every index of a valid
route is in range), so theorems about the values of entries restrict to
square matrices. -/
def rutaCost (d : List (List ℚ)) (ruta : List ℕ) : ℚ :=
  ((ruta.zip ruta.tail).map fun e => (d.getD e.1 []).getD e.2 0).sum

/-- The full candidate route built from a permutation of the intermediate
cities: `ruta = (0,) + permutacion + (0,)` in the source. -/
def mkRuta (p : List ℕ) : List ℕ := 0 :: p ++ [0]

/-- Fuel-indexed generator of all permutations of a list, emitted in
lexicographic order when the input is sorted: this is the order in which
Python's `itertools.permutations` yields the tuples for a sorted input.
The fuel (always instantiated with the length of the list) makes the
recursion structural, so that the definition evaluates by `decide`. -/
def permsLexAux : ℕ → List ℕ → List (List ℕ)
  | 0, _ => [[]]
  | _, [] => [[]]
  | fuel + 1, l => (l.map fun x => (permsLexAux fuel (l.erase x)).map (x :: ·)).flatten

/-- All permutations of `l` in the enumeration order of
`itertools.permutations` (lexicographic for sorted input). -/
def permsLex (l : List ℕ) : List (List ℕ) := permsLexAux l.length l

/-- One iteration of the TSP loop: build the route for the current
permutation, compute its total distance, and update
`(mejor_ruta, distancia_minima)` when the distance is strictly smaller
(`if distancia_total < distancia_minima`).  The initial
`(None, float('inf'))` state is the pair `(none, none)`; a `none` best is
always replaced, exactly as every finite cost beats infinity. -/
def tspStep (d : List (List ℚ)) (acc : Option (List ℕ) × Option ℚ) (p : List ℕ) :
    Option (List ℕ) × Option ℚ :=
  match acc.2 with
  | none => (some (mkRuta p), some (rutaCost d (mkRuta p)))
  | some m =>
    if rutaCost d (mkRuta p) < m then (some (mkRuta p), some (rutaCost d (mkRuta p))) else acc

/-- The whole TSP cell: `N = len(distancias)`, iterate over
`permutations(range(1, N))` and return `(mejor_ruta, distancia_minima)`. -/
def tspSolve (d : List (List ℚ)) : Option (List ℕ) × Option ℚ :=
  (permsLex (List.range' 1 (d.length - 1))).foldl (tspStep d) (none, none)

/-- Modelled from the spec: the spec's §4.1 cost formula, "the sum of
distances[R[k]][R[k+1]] for k in [0, N−1)", which takes only the first
`N − 1` consecutive pairs of the route (the code sums all `N` of them).
This definition follows the spec's words and exists only to be compared
with `rutaCost`, which is translated from the source. -/
def specPartialCost (d : List (List ℚ)) (ruta : List ℕ) : ℚ :=
  (((ruta.zip ruta.tail).take (d.length - 1)).map fun e => (d.getD e.1 []).getD e.2 0).sum

/-- The concrete distance matrix hardcoded in the TSP notebook. -/
def m4 : List (List ℚ) :=
  [[0, 10, 15, 20], [10, 0, 35, 25], [15, 35, 0, 30], [20, 25, 30, 0]]

example : permsLex [1, 2] = [[1, 2], [2, 1]] := by decide

example : tspSolve m4 = (some [0, 1, 3, 2, 0], some 80) := by
  norm_num [tspSolve, show List.range' 1 3 = [1, 2, 3] from rfl,
    show permsLex [1, 2, 3] = [[1,2,3],[1,3,2],[2,1,3],[2,3,1],[3,1,2],[3,2,1]] from by decide,
    tspStep, rutaCost, mkRuta, m4]

/-- Every member of `permsLexAux fuel l` is a permutation of `l` and
conversely, provided the fuel covers the length of `l`. -/
theorem permsLexAux_mem : ∀ (fuel : ℕ) (l p : List ℕ), l.length ≤ fuel →
    (p ∈ permsLexAux fuel l ↔ p.Perm l)
  | 0, l, p, h => by
    have hl : l = [] := List.eq_nil_of_length_eq_zero (Nat.le_zero.mp h)
    subst hl
    simp [permsLexAux, List.perm_nil]
  | fuel + 1, [], p, _ => by simp [permsLexAux, List.perm_nil]
  | fuel + 1, a :: t, p, h => by
    have hstep : ∀ x, x ∈ a :: t → ((a :: t).erase x).length ≤ fuel := by
      intro x hx
      rw [List.length_erase_of_mem hx]
      simp only [List.length_cons] at h ⊢
      omega
    constructor
    · intro hp
      simp only [permsLexAux, List.mem_flatten, List.mem_map] at hp
      obtain ⟨b, ⟨x, hx, rfl⟩, hpb⟩ := hp
      obtain ⟨q, hq, rfl⟩ := List.mem_map.mp hpb
      have hq' := (permsLexAux_mem fuel _ q (hstep x hx)).mp hq
      exact (hq'.cons x).trans (List.perm_cons_erase hx).symm
    · intro hp
      match p, hp with
      | [], hp => simp [List.nil_perm] at hp
      | x :: q, hp =>
        obtain ⟨hx, hq⟩ := List.cons_perm_iff_perm_erase.mp hp
        simp only [permsLexAux, List.mem_flatten, List.mem_map]
        exact ⟨_, ⟨x, hx, rfl⟩,
          List.mem_map.mpr ⟨q, (permsLexAux_mem fuel _ q (hstep x hx)).mpr hq, rfl⟩⟩

/-- `permsLex l` contains exactly the permutations of `l`. -/
theorem permsLex_mem (l p : List ℕ) : p ∈ permsLex l ↔ p.Perm l :=
  permsLexAux_mem l.length l p le_rfl

/-- The enumeration of permutations is never empty (for `l = []` it holds
the single empty arrangement, matching `itertools.permutations`). -/
theorem permsLex_ne_nil (l : List ℕ) : permsLex l ≠ [] := by
  intro h
  have := (permsLex_mem l l).mpr (List.Perm.refl l)
  rw [h] at this
  exact absurd this (List.not_mem_nil l)

/-- For a strictly sorted input list, `permsLexAux` emits the permutations
in strictly increasing lexicographic order. -/
theorem permsLexAux_pairwise : ∀ (fuel : ℕ) (l : List ℕ), l.length ≤ fuel →
    l.Sorted (· < ·) → (permsLexAux fuel l).Pairwise (List.Lex (· < ·))
  | 0, l, _, _ => by simp [permsLexAux]
  | fuel + 1, [], _, _ => by simp [permsLexAux]
  | fuel + 1, a :: t, h, hs => by
    have hstep : ∀ x, x ∈ a :: t → ((a :: t).erase x).length ≤ fuel := by
      intro x hx
      rw [List.length_erase_of_mem hx]
      simp only [List.length_cons] at h ⊢
      omega
    simp only [permsLexAux]
    rw [List.pairwise_flatten]
    constructor
    · intro bl hbl
      obtain ⟨x, hx, rfl⟩ := List.mem_map.mp hbl
      rw [List.pairwise_map]
      have inner := permsLexAux_pairwise fuel ((a :: t).erase x) (hstep x hx)
        (hs.sublist (List.erase_sublist x (a :: t)))
      exact inner.imp (fun hlex => List.Lex.cons hlex)
    · rw [List.pairwise_map]
      refine hs.imp_of_mem ?_
      intro x y _ _ hxy
      intro u hu v hv
      obtain ⟨u', _, rfl⟩ := List.mem_map.mp hu
      obtain ⟨v', _, rfl⟩ := List.mem_map.mp hv
      exact List.Lex.rel hxy

/-- `range'` lists are strictly sorted. -/
theorem sorted_range' (s n : ℕ) : (List.range' s n).Sorted (· < ·) := by
  rw [List.range'_eq_map_range]
  rw [List.Sorted, List.pairwise_map]
  exact (List.pairwise_lt_range n).imp (fun hab => by omega)

/-- Invariant of the TSP best-tracking fold: starting from a recorded best
permutation `p`, the fold returns a recorded permutation `r` that achieves
the minimum cost over `p` and all remaining candidates, improves on `p`
only strictly, and is lexicographically least among the candidates that
achieve the minimum (the first-seen-wins tie-break of the `<` update). -/
theorem tspFold_spec (d : List (List ℚ)) :
    ∀ (cs : List (List ℕ)) (p : List ℕ),
    (∀ q ∈ cs, List.Lex (· < ·) p q) → cs.Pairwise (List.Lex (· < ·)) →
    ∃ r, cs.foldl (tspStep d) (some (mkRuta p), some (rutaCost d (mkRuta p)))
          = (some (mkRuta r), some (rutaCost d (mkRuta r)))
      ∧ r ∈ p :: cs
      ∧ (∀ q ∈ p :: cs, rutaCost d (mkRuta r) ≤ rutaCost d (mkRuta q))
      ∧ (r = p ∨ rutaCost d (mkRuta r) < rutaCost d (mkRuta p))
      ∧ (∀ q ∈ p :: cs, rutaCost d (mkRuta q) = rutaCost d (mkRuta r) →
           r = q ∨ List.Lex (· < ·) r q)
  | [], p, _, _ => by
    refine ⟨p, rfl, List.mem_singleton.mpr rfl, ?_, Or.inl rfl, ?_⟩
    · intro q hq
      rw [List.mem_singleton.mp hq]
    · intro q hq _
      exact Or.inl (List.mem_singleton.mp hq).symm
  | c :: cs, p, hlex, hpw => by
    have hstep : tspStep d (some (mkRuta p), some (rutaCost d (mkRuta p))) c
        = if rutaCost d (mkRuta c) < rutaCost d (mkRuta p)
          then (some (mkRuta c), some (rutaCost d (mkRuta c)))
          else (some (mkRuta p), some (rutaCost d (mkRuta p))) := rfl
    rw [List.foldl_cons, hstep]
    obtain ⟨hlexc, hpw'⟩ := List.pairwise_cons.mp hpw
    by_cases hc : rutaCost d (mkRuta c) < rutaCost d (mkRuta p)
    · rw [if_pos hc]
      obtain ⟨r, heq, hmem, hmin, himp, hfirst⟩ := tspFold_spec d cs c hlexc hpw'
      refine ⟨r, heq, ?_, ?_, ?_, ?_⟩
      · exact List.mem_cons_of_mem p hmem
      · intro q hq
        rcases List.mem_cons.mp hq with hqp | hq'
        · subst hqp
          exact le_of_lt (lt_of_le_of_lt (hmin c (List.mem_cons_self c cs)) hc)
        · exact hmin q hq'
      · exact Or.inr (lt_of_le_of_lt (hmin c (List.mem_cons_self c cs)) hc)
      · intro q hq hcost
        rcases List.mem_cons.mp hq with hqp | hq'
        · subst hqp
          have hrc := lt_of_le_of_lt (hmin c (List.mem_cons_self c cs)) hc
          exact absurd hcost (ne_of_gt hrc)
        · exact hfirst q hq' hcost
    · rw [if_neg hc]
      have hlex' : ∀ q ∈ cs, List.Lex (· < ·) p q := fun q hq =>
        hlex q (List.mem_cons_of_mem c hq)
      obtain ⟨r, heq, hmem, hmin, himp, hfirst⟩ := tspFold_spec d cs p hlex' hpw'
      have hpc : rutaCost d (mkRuta p) ≤ rutaCost d (mkRuta c) := not_lt.mp hc
      refine ⟨r, heq, ?_, ?_, himp, ?_⟩
      · rcases List.mem_cons.mp hmem with hrp | hr'
        · exact hrp ▸ List.mem_cons_self p (c :: cs)
        · exact List.mem_cons_of_mem p (List.mem_cons_of_mem c hr')
      · intro q hq
        rcases List.mem_cons.mp hq with hqp | hq'
        · exact hqp ▸ hmin p (List.mem_cons_self p cs)
        · rcases List.mem_cons.mp hq' with hqc | hq''
          · subst hqc
            exact le_trans (hmin p (List.mem_cons_self p cs)) hpc
          · exact hmin q (List.mem_cons_of_mem p hq'')
      · intro q hq hcost
        rcases List.mem_cons.mp hq with hqp | hq'
        · exact hfirst q (hqp ▸ List.mem_cons_self p cs) hcost
        · rcases List.mem_cons.mp hq' with hqc | hq''
          · subst hqc
            have hcr : rutaCost d (mkRuta p) ≤ rutaCost d (mkRuta r) := by
              rw [← hcost]
              exact hpc
            have hrep : r = p := by
              rcases himp with h | h
              · exact h
              · exact absurd h (not_lt.mpr hcr)
            subst hrep
            exact Or.inr (hlex q (List.mem_cons_self q cs))
          · exact hfirst q (List.mem_cons_of_mem p hq'') hcost

/-- Full characterisation of `tspSolve`: it returns the route and cost of a
permutation enumerated by `permsLex`, the cost is minimal over the whole
enumeration, and the winner is lexicographically least among the candidates
achieving the minimal cost. -/
theorem tspSolve_spec (d : List (List ℚ)) :
    ∃ r, r ∈ permsLex (List.range' 1 (d.length - 1))
      ∧ tspSolve d = (some (mkRuta r), some (rutaCost d (mkRuta r)))
      ∧ (∀ q ∈ permsLex (List.range' 1 (d.length - 1)),
          rutaCost d (mkRuta r) ≤ rutaCost d (mkRuta q))
      ∧ (∀ q ∈ permsLex (List.range' 1 (d.length - 1)),
          rutaCost d (mkRuta q) = rutaCost d (mkRuta r) →
            r = q ∨ List.Lex (· < ·) r q) := by
  have hpw : (permsLex (List.range' 1 (d.length - 1))).Pairwise (List.Lex (· < ·)) :=
    permsLexAux_pairwise _ _ le_rfl (sorted_range' 1 (d.length - 1))
  obtain ⟨c, cs, hcs⟩ :=
    List.exists_cons_of_ne_nil (permsLex_ne_nil (List.range' 1 (d.length - 1)))
  rw [hcs] at hpw
  obtain ⟨hlexc, hpw'⟩ := List.pairwise_cons.mp hpw
  obtain ⟨r, heq, hmem, hmin, _, hachv⟩ := tspFold_spec d cs c hlexc hpw'
  refine ⟨r, ?_, ?_, ?_, ?_⟩
  · rw [hcs]
    exact hmem
  · simp only [tspSolve]
    rw [hcs, List.foldl_cons]
    exact heq
  · intro q hq
    rw [hcs] at hq
    exact hmin q hq
  · intro q hq hc
    rw [hcs] at hq
    exact hachv q hq hc

/-- C1 (amended): for every square distance matrix of size N ≥ 1 with
non-negative entries and zero diagonal, the TSP loop returns the minimum,
over all permutations P of {1..N−1}, of the total cost of the route
(0, P[0], ..., P[N−2], 0), where the total cost sums
distances[R[k]][R[k+1]] over all N consecutive route positions k in [0, N)
(the claim's bound [0, N−1) omits the closing edge back to the origin). -/
theorem tspSolve_cost_optimal (d : List (List ℚ)) (hN : 1 ≤ d.length)
    (hsq : ∀ row ∈ d, row.length = d.length)
    (hnn : ∀ row ∈ d, ∀ x ∈ row, 0 ≤ x)
    (hdiag : ∀ i, i < d.length → (d.getD i []).getD i 0 = 0) :
    ∃ r m, tspSolve d = (some r, some m)
      ∧ (∃ p, p.Perm (List.range' 1 (d.length - 1)) ∧ r = mkRuta p ∧ m = rutaCost d r)
      ∧ (∀ p, p.Perm (List.range' 1 (d.length - 1)) → m ≤ rutaCost d (mkRuta p)) := by
  obtain ⟨r, hmem, heq, hmin, _⟩ := tspSolve_spec d
  refine ⟨mkRuta r, rutaCost d (mkRuta r), heq,
    ⟨r, (permsLex_mem _ r).mp hmem, rfl, rfl⟩, ?_⟩
  intro p hp
  exact hmin p ((permsLex_mem _ p).mpr hp)

/-- Witness for the amended C1 at the notebook's concrete matrix. -/
theorem tspSolve_cost_optimal_witness :
    (1 ≤ m4.length ∧ (∀ row ∈ m4, row.length = m4.length)
      ∧ (∀ row ∈ m4, ∀ x ∈ row, 0 ≤ x)
      ∧ (∀ i, i < m4.length → (m4.getD i []).getD i 0 = 0))
    ∧ ∃ r m, tspSolve m4 = (some r, some m)
      ∧ (∃ p, p.Perm (List.range' 1 (m4.length - 1)) ∧ r = mkRuta p ∧ m = rutaCost m4 r)
      ∧ (∀ p, p.Perm (List.range' 1 (m4.length - 1)) → m ≤ rutaCost m4 (mkRuta p)) := by
  have h1 : 1 ≤ m4.length := by norm_num [m4]
  have h2 : ∀ row ∈ m4, row.length = m4.length := by norm_num [m4]
  have h3 : ∀ row ∈ m4, ∀ x ∈ row, 0 ≤ x := by norm_num [m4]
  have h4 : ∀ i, i < m4.length → (m4.getD i []).getD i 0 = 0 := by
    intro i hi
    norm_num [m4] at hi
    interval_cases i <;> norm_num [m4]
  exact ⟨⟨h1, h2, h3, h4⟩, tspSolve_cost_optimal m4 h1 h2 h3 h4⟩

/-- C1 counterexample: at the notebook's own matrix the code returns total
cost 80, while the minimum over all permutations of the spec's cost
formula (sum over k in [0, N−1), i.e. only the first three edges of the
four-edge route) is 65: the returned cost is not that minimum. -/
theorem tspSolve_specCost_cex :
    (tspSolve m4).2 = some 80
    ∧ ((permsLex (List.range' 1 (m4.length - 1))).map
        fun p => specPartialCost m4 (mkRuta p)) = [75, 65, 75, 70, 80, 85]
    ∧ ¬ ((80 : ℚ) ≤ 65) := by
  refine ⟨?_, ?_, by norm_num⟩
  · norm_num [tspSolve, show List.range' 1 3 = [1, 2, 3] from rfl,
      show permsLex [1, 2, 3] = [[1,2,3],[1,3,2],[2,1,3],[2,3,1],[3,1,2],[3,2,1]] from by
        decide,
      tspStep, rutaCost, mkRuta, m4]
  · norm_num [show List.range' 1 3 = [1, 2, 3] from rfl,
      show permsLex [1, 2, 3] = [[1,2,3],[1,3,2],[2,1,3],[2,3,1],[3,1,2],[3,2,1]] from by
        decide,
      specPartialCost, mkRuta, m4]

/-- C3: for every matrix of size N ≥ 1 the returned route has length N+1,
begins and ends at the origin 0, and its interior is a permutation of
{1..N−1}. -/
theorem tspSolve_route_valid (d : List (List ℚ)) (hN : 1 ≤ d.length) :
    ∃ p, tspSolve d = (some (mkRuta p), some (rutaCost d (mkRuta p)))
      ∧ p.Perm (List.range' 1 (d.length - 1))
      ∧ (mkRuta p).length = d.length + 1
      ∧ (mkRuta p).head? = some 0
      ∧ (mkRuta p).getLast? = some 0 := by
  obtain ⟨r, hmem, heq, _, _⟩ := tspSolve_spec d
  have hperm := (permsLex_mem _ r).mp hmem
  have hlen : r.length = d.length - 1 := by
    rw [hperm.length_eq, List.length_range']
  refine ⟨r, heq, hperm, ?_, rfl, ?_⟩
  · have hmk : (mkRuta r).length = r.length + 2 := by simp [mkRuta]
    omega
  · show (0 :: r ++ [0]).getLast? = some 0
    rw [show 0 :: r ++ [0] = (0 :: r) ++ [0] from rfl]
    exact List.getLast?_concat _

/-- Witness for C3 at the notebook's concrete matrix. -/
theorem tspSolve_route_valid_witness :
    1 ≤ m4.length
    ∧ ∃ p, tspSolve m4 = (some (mkRuta p), some (rutaCost m4 (mkRuta p)))
      ∧ p.Perm (List.range' 1 (m4.length - 1))
      ∧ (mkRuta p).length = m4.length + 1
      ∧ (mkRuta p).head? = some 0
      ∧ (mkRuta p).getLast? = some 0 :=
  ⟨by norm_num [m4], tspSolve_route_valid m4 (by norm_num [m4])⟩

/-- C6: ties are broken first-seen-wins; the strict `<` update makes the
returned permutation the lexicographically earliest-enumerated one among
all permutations achieving the minimum cost. -/
theorem tspSolve_tie_break_first (d : List (List ℚ)) (hN : 1 ≤ d.length) :
    ∃ p, p ∈ permsLex (List.range' 1 (d.length - 1))
      ∧ tspSolve d = (some (mkRuta p), some (rutaCost d (mkRuta p)))
      ∧ (∀ q ∈ permsLex (List.range' 1 (d.length - 1)),
          rutaCost d (mkRuta p) ≤ rutaCost d (mkRuta q))
      ∧ (∀ q, q.Perm (List.range' 1 (d.length - 1)) →
          rutaCost d (mkRuta q) = rutaCost d (mkRuta p) →
            p = q ∨ List.Lex (· < ·) p q) := by
  obtain ⟨r, hmem, heq, hmin, hachv⟩ := tspSolve_spec d
  exact ⟨r, hmem, heq, hmin, fun q hq hc => hachv q ((permsLex_mem _ q).mpr hq) hc⟩

/-- Witness for C6 at the notebook's concrete matrix. -/
theorem tspSolve_tie_break_first_witness :
    1 ≤ m4.length
    ∧ ∃ p, p ∈ permsLex (List.range' 1 (m4.length - 1))
      ∧ tspSolve m4 = (some (mkRuta p), some (rutaCost m4 (mkRuta p)))
      ∧ (∀ q ∈ permsLex (List.range' 1 (m4.length - 1)),
          rutaCost m4 (mkRuta p) ≤ rutaCost m4 (mkRuta q))
      ∧ (∀ q, q.Perm (List.range' 1 (m4.length - 1)) →
          rutaCost m4 (mkRuta q) = rutaCost m4 (mkRuta p) →
            p = q ∨ List.Lex (· < ·) p q) :=
  ⟨by norm_num [m4], tspSolve_tie_break_first m4 (by norm_num [m4])⟩

/-- C7 (amended): the TSP code performs no validation raising a structured
InvalidInputError.  In particular, negative entries are never rejected: for
any square matrix of size N ≥ 1, even one containing negative entries, the
code returns a best-route/cost result pair.  (Non-square inputs are not
covered here: on those, numpy's fancy indexing can raise an unstructured
IndexError — still not the claimed structured error — and the embedding's
total `getD` indexing is only exact on square matrices.) -/
theorem tspSolve_no_validation (d : List (List ℚ)) (hN : 1 ≤ d.length)
    (hsq : ∀ row ∈ d, row.length = d.length) :
    ∃ r m, tspSolve d = (some r, some m) := by
  obtain ⟨r, _, heq, _, _⟩ := tspSolve_spec d
  exact ⟨mkRuta r, rutaCost d (mkRuta r), heq⟩

/-- Witness for the amended C7, at a square matrix with negative entries. -/
theorem tspSolve_no_validation_witness :
    (1 ≤ ([[0, -1], [-1, 0]] : List (List ℚ)).length
      ∧ (∀ row ∈ ([[0, -1], [-1, 0]] : List (List ℚ)),
          row.length = ([[0, -1], [-1, 0]] : List (List ℚ)).length))
    ∧ ∃ r m, tspSolve [[0, -1], [-1, 0]] = (some r, some m) :=
  ⟨⟨by norm_num, by norm_num⟩,
   tspSolve_no_validation [[0, -1], [-1, 0]] (by norm_num) (by norm_num)⟩

/-- C7 counterexample: on a square matrix containing negative entries the
code raises no error and returns the result pair (route (0,1,0), cost −2),
refuting the claim that no result is returned for such inputs. -/
theorem tspSolve_negative_entries_cex :
    tspSolve [[0, -1], [-1, 0]] = (some [0, 1, 0], some (-2)) := by
  norm_num [tspSolve, show List.range' 1 1 = [1] from rfl,
    show permsLex [1] = [[1]] from by decide, tspStep, rutaCost, mkRuta]

/-- An item triple `(P[i], W[i], i)`: value, weight, original index, as
built by the ranking cell `[(P[i], W[i], i) for i in range(N)]`. -/
abbrev Objeto : Type := ℚ × ℚ × ℕ

/-- The original-order item triples, with `N = len(W)` as in the source. -/
def objetosList (P W : List ℚ) : List Objeto :=
  (List.range W.length).map fun i => (P.getD i 0, W.getD i 0, i)

/-- The sort key order of the ranking cell: value/weight ratio, descending
(`key=lambda x: x[0] / x[1], reverse=True`). -/
def razonDesc (a b : Objeto) : Prop := b.1 / b.2.1 ≤ a.1 / a.2.1

instance : DecidableRel razonDesc := fun a b =>
  inferInstanceAs (Decidable (b.1 / b.2.1 ≤ a.1 / a.2.1))

/-- The ranked item list (`objetos` in the notebook): a stable sort of the
triples by descending value/weight ratio, matching Python's stable
`sorted(..., reverse=True)`. -/
def rankedObjetos (P W : List ℚ) : List Objeto :=
  List.insertionSort razonDesc (objetosList P W)

/-- The ranking step as the caller observes it: Python's `sorted` applies
the key `x[0] / x[1]` to every triple, so it raises `ZeroDivisionError`
whenever some weight is zero; that fallible behaviour is modelled by an
`Option` that is `none` exactly in that case. -/
def rank (P W : List ℚ) : Option (List Objeto) :=
  if ∃ t ∈ objetosList P W, t.2.1 = 0 then none else some (rankedObjetos P W)

/-- The inner evaluation loop `for j in range(N)` of one bit pattern `i`:
walk the ranked list accumulating `peso_total`, `ganancia_total` and
`seleccion` for the set bits (bit `j` of `i` selects `objetos[j]`), and
break out — returning the partial accumulators — as soon as the
accumulated weight exceeds the capacity (`if peso_total > C: break`).
Walking the list with `i % 2` / `i / 2` reads bit `j` at the `j`-th
element, exactly as `(i >> j) & 1` does. -/
def evalPat (P : List ℚ) (C : ℚ) : List Objeto → ℕ → ℚ → ℚ → List ℕ → ℚ × ℚ × List ℕ
  | [], _, peso, gan, sel => (peso, gan, sel)
  | t :: rest, i, peso, gan, sel =>
    if i % 2 = 1 then
      if C < peso + t.2.1 then (peso + t.2.1, gan + P.getD t.2.2 0, sel ++ [t.2.2])
      else evalPat P C rest (i / 2) (peso + t.2.1) (gan + P.getD t.2.2 0) (sel ++ [t.2.2])
    else evalPat P C rest (i / 2) peso gan sel

/-- One iteration of the outer loop: evaluate pattern `i` and update the
best pair when the pattern is within capacity and strictly improves the
best value (`if peso_total <= C and ganancia_total > mejor_ganancia`). -/
def knapStep (P : List ℚ) (C : ℚ) (obj : List Objeto) (acc : ℚ × Option (List ℕ)) (i : ℕ) :
    ℚ × Option (List ℕ) :=
  if (evalPat P C obj i 0 0 []).1 ≤ C ∧ acc.1 < (evalPat P C obj i 0 0 []).2.1
  then ((evalPat P C obj i 0 0 []).2.1, some (evalPat P C obj i 0 0 []).2.2)
  else acc

/-- The whole enumeration loop over `for i in range(1 << N)`, starting from
`mejor_ganancia = 0`, `mejor_combinacion = None`, run over an arbitrary
triple list (the notebook runs it over the ranked list). -/
def solveOn (P : List ℚ) (C : ℚ) (obj : List Objeto) : ℚ × Option (List ℕ) :=
  (List.range (2 ^ obj.length)).foldl (knapStep P C obj) (0, none)

/-- The knapsack cells end to end: rank, then enumerate; `none` models the
uncaught `ZeroDivisionError` of the ranking cell. -/
def knapSolve (P W : List ℚ) (C : ℚ) : Option (ℚ × Option (List ℕ)) :=
  (rank P W).map fun obj => solveOn P C obj

/-- The triples selected by the set bits of pattern `i` (specification-side
view of the inner loop, with no early exit). -/
def selectBits : ℕ → List Objeto → List Objeto
  | _, [] => []
  | i, t :: rest =>
    if i % 2 = 1 then t :: selectBits (i / 2) rest else selectBits (i / 2) rest

/-- Aggregate weight of a list of triples. -/
def pesoOf (s : List Objeto) : ℚ := (s.map fun t => t.2.1).sum

/-- Aggregate value of a list of triples, read off the original value list
`P` through the stored index, as `ganancia_total += P[idx]` does. -/
def ganOf (P : List ℚ) (s : List Objeto) : ℚ := (s.map fun t => P.getD t.2.2 0).sum

/-- The original indices of a list of triples, in selection order. -/
def selOf (s : List Objeto) : List ℕ := s.map fun t => t.2.2

/-- The outer-loop update computed without the early exit: the full
accumulated weight and value of all set bits decide feasibility. -/
def knapStepFull (P : List ℚ) (C : ℚ) (obj : List Objeto) (acc : ℚ × Option (List ℕ))
    (i : ℕ) : ℚ × Option (List ℕ) :=
  if pesoOf (selectBits i obj) ≤ C ∧ acc.1 < ganOf P (selectBits i obj)
  then (ganOf P (selectBits i obj), some (selOf (selectBits i obj)))
  else acc

/-- The enumeration loop with the fully-accumulating evaluation. -/
def solveOnFull (P : List ℚ) (C : ℚ) (obj : List Objeto) : ℚ × Option (List ℕ) :=
  (List.range (2 ^ obj.length)).foldl (knapStepFull P C obj) (0, none)

example : knapSolve [1] [1] 1 = some (1, some [0]) := by
  norm_num [knapSolve, rank, rankedObjetos, objetosList, razonDesc, solveOn, knapStep,
    evalPat, List.range, List.range.loop, List.insertionSort]

example : knapSolve [5] [-2] 8 = some (5, some [0]) := by
  norm_num [knapSolve, rank, rankedObjetos, objetosList, razonDesc, solveOn, knapStep,
    evalPat, List.range, List.range.loop, List.insertionSort]

example : knapSolve [1] [0] 1 = none := by
  norm_num [knapSolve, rank, rankedObjetos, objetosList, razonDesc]

example :
    rankedObjetos [5, 7, 5, 4, 10] [2, 1, 3, 3/2, 4]
      = [(7, 1, 1), (4, 3/2, 3), (5, 2, 0), (10, 4, 4), (5, 3, 2)] := by
  norm_num [rankedObjetos, objetosList, razonDesc, List.insertionSort, List.orderedInsert]

example : knapSolve [5, 7, 5, 4, 10] [2, 1, 3, 3/2, 4] 8 = some (22, some [1, 0, 4]) := by
  norm_num [knapSolve, rank, rankedObjetos, objetosList, razonDesc, solveOn, knapStep,
    evalPat, List.range, List.range.loop, List.insertionSort, List.orderedInsert]

@[simp]
theorem pesoOf_nil : pesoOf [] = 0 := rfl

@[simp]
theorem pesoOf_cons (t : Objeto) (s : List Objeto) : pesoOf (t :: s) = t.2.1 + pesoOf s := by
  simp [pesoOf]

@[simp]
theorem ganOf_nil (P : List ℚ) : ganOf P [] = 0 := rfl

@[simp]
theorem ganOf_cons (P : List ℚ) (t : Objeto) (s : List Objeto) :
    ganOf P (t :: s) = P.getD t.2.2 0 + ganOf P s := by
  simp [ganOf]

@[simp]
theorem selOf_nil : selOf [] = [] := rfl

@[simp]
theorem selOf_cons (t : Objeto) (s : List Objeto) : selOf (t :: s) = t.2.2 :: selOf s := by
  simp [selOf]

/-- The selected triples always form a sublist of the walked list. -/
theorem selectBits_sublist : ∀ (i : ℕ) (obj : List Objeto), (selectBits i obj).Sublist obj
  | _, [] => List.Sublist.refl []
  | i, t :: rest => by
    by_cases hbit : i % 2 = 1
    · simpa [selectBits, hbit] using (selectBits_sublist (i / 2) rest).cons₂ t
    · simpa [selectBits, hbit] using (selectBits_sublist (i / 2) rest).cons t

/-- Every sublist of `obj` is selected by some bit pattern below
`2 ^ length obj`: the bit patterns enumerate exactly the subsets. -/
theorem sublist_eq_selectBits : ∀ (obj s : List Objeto), s.Sublist obj →
    ∃ i, i < 2 ^ obj.length ∧ selectBits i obj = s
  | [], s, hs => ⟨0, by norm_num, by simpa [selectBits] using (List.sublist_nil.mp hs).symm⟩
  | t :: rest, s, hs => by
    cases hs with
    | cons _ hrest =>
      obtain ⟨i, hi, hsel⟩ := sublist_eq_selectBits rest s hrest
      refine ⟨2 * i, ?_, ?_⟩
      ·
        have : 2 * i < 2 * 2 ^ rest.length := by omega
        simpa [List.length_cons, pow_succ, Nat.mul_comm] using this
      · have h2 : (2 * i) % 2 = 0 := by omega
        have h3 : (2 * i) / 2 = i := by omega
        simp [selectBits, h2, h3, hsel]
    | cons₂ _ hrest =>
      obtain ⟨i, hi, hsel⟩ := sublist_eq_selectBits rest _ hrest
      refine ⟨2 * i + 1, ?_, ?_⟩
      ·
        have : 2 * i + 1 < 2 * 2 ^ rest.length := by omega
        simpa [List.length_cons, pow_succ, Nat.mul_comm] using this
      · have h2 : (2 * i + 1) % 2 = 1 := by omega
        have h3 : (2 * i + 1) / 2 = i := by omega
        simp [selectBits, h2, h3, hsel]

/-- Aggregate weight is non-negative when every weight is. -/
theorem pesoOf_nonneg (s : List Objeto) (h : ∀ t ∈ s, 0 ≤ t.2.1) : 0 ≤ pesoOf s := by
  apply List.sum_nonneg
  intro x hx
  obtain ⟨t, ht, rfl⟩ := List.mem_map.mp hx
  exact h t ht

/-- The inner loop always returns the accumulators extended by the weight,
value and indices of some sublist of the walked list (on the early-exit
path, the prefix of the selection walked so far). -/
theorem evalPat_sublist (P : List ℚ) (C : ℚ) :
    ∀ (obj : List Objeto) (i : ℕ) (peso gan : ℚ) (sel : List ℕ),
    ∃ s, s.Sublist obj
      ∧ evalPat P C obj i peso gan sel = (peso + pesoOf s, gan + ganOf P s, sel ++ selOf s)
  | [], i, peso, gan, sel => ⟨[], List.Sublist.refl [], by simp [evalPat]⟩
  | t :: rest, i, peso, gan, sel => by
    by_cases hbit : i % 2 = 1
    · by_cases hbreak : C < peso + t.2.1
      · refine ⟨[t], by simp, ?_⟩
        simp [evalPat, hbit, hbreak]
      · obtain ⟨s, hs, heq⟩ := evalPat_sublist P C rest (i / 2) (peso + t.2.1)
          (gan + P.getD t.2.2 0) (sel ++ [t.2.2])
        refine ⟨t :: s, hs.cons₂ t, ?_⟩
        rw [show evalPat P C (t :: rest) i peso gan sel
            = evalPat P C rest (i / 2) (peso + t.2.1) (gan + P.getD t.2.2 0)
              (sel ++ [t.2.2]) from by simp [evalPat, hbit, hbreak]]
        rw [heq]
        simp [add_assoc]
    · obtain ⟨s, hs, heq⟩ := evalPat_sublist P C rest (i / 2) peso gan sel
      refine ⟨s, hs.cons t, ?_⟩
      rw [show evalPat P C (t :: rest) i peso gan sel
          = evalPat P C rest (i / 2) peso gan sel from by simp [evalPat, hbit]]
      exact heq

/-- When the fully accumulated weight of the selected bits fits within the
capacity (and weights are non-negative), the early exit never fires and the
inner loop returns exactly the full accumulation. -/
theorem evalPat_feasible (P : List ℚ) (C : ℚ) :
    ∀ (obj : List Objeto) (i : ℕ) (peso gan : ℚ) (sel : List ℕ),
    (∀ t ∈ obj, 0 ≤ t.2.1) → peso + pesoOf (selectBits i obj) ≤ C →
    evalPat P C obj i peso gan sel
      = (peso + pesoOf (selectBits i obj), gan + ganOf P (selectBits i obj),
         sel ++ selOf (selectBits i obj))
  | [], i, peso, gan, sel, _, _ => by simp [evalPat, selectBits]
  | t :: rest, i, peso, gan, sel, hw, hle => by
    have hwrest : ∀ u ∈ rest, 0 ≤ u.2.1 := fun u hu => hw u (List.mem_cons_of_mem t hu)
    by_cases hbit : i % 2 = 1
    · have hsb : selectBits i (t :: rest) = t :: selectBits (i / 2) rest := by
        simp [selectBits, hbit]
      rw [hsb] at hle ⊢
      have hrest0 : 0 ≤ pesoOf (selectBits (i / 2) rest) :=
        pesoOf_nonneg _ (fun u hu => hwrest u ((selectBits_sublist _ _).subset hu))
      rw [pesoOf_cons] at hle
      have hnobreak : ¬ C < peso + t.2.1 := by
        push_neg
        linarith
      rw [show evalPat P C (t :: rest) i peso gan sel
          = evalPat P C rest (i / 2) (peso + t.2.1) (gan + P.getD t.2.2 0)
            (sel ++ [t.2.2]) from by simp [evalPat, hbit, hnobreak]]
      rw [evalPat_feasible P C rest (i / 2) (peso + t.2.1) (gan + P.getD t.2.2 0)
        (sel ++ [t.2.2]) hwrest (by linarith)]
      simp [add_assoc]
    · have hsb : selectBits i (t :: rest) = selectBits (i / 2) rest := by
        simp [selectBits, hbit]
      rw [hsb] at hle ⊢
      rw [show evalPat P C (t :: rest) i peso gan sel
          = evalPat P C rest (i / 2) peso gan sel from by simp [evalPat, hbit]]
      exact evalPat_feasible P C rest (i / 2) peso gan sel hwrest hle

/-- When the fully accumulated weight exceeds the capacity (and weights are
non-negative), the inner loop's returned weight also exceeds the capacity,
whether or not the early exit fired: the pattern is rejected either way. -/
theorem evalPat_infeasible (P : List ℚ) (C : ℚ) :
    ∀ (obj : List Objeto) (i : ℕ) (peso gan : ℚ) (sel : List ℕ),
    (∀ t ∈ obj, 0 ≤ t.2.1) → C < peso + pesoOf (selectBits i obj) →
    C < (evalPat P C obj i peso gan sel).1
  | [], i, peso, gan, sel, _, hlt => by
    simp only [selectBits, pesoOf_nil, add_zero] at hlt
    simpa [evalPat] using hlt
  | t :: rest, i, peso, gan, sel, hw, hlt => by
    have hwrest : ∀ u ∈ rest, 0 ≤ u.2.1 := fun u hu => hw u (List.mem_cons_of_mem t hu)
    by_cases hbit : i % 2 = 1
    · have hsb : selectBits i (t :: rest) = t :: selectBits (i / 2) rest := by
        simp [selectBits, hbit]
      rw [hsb, pesoOf_cons] at hlt
      by_cases hbreak : C < peso + t.2.1
      · simpa [evalPat, hbit, hbreak] using hbreak
      · rw [show evalPat P C (t :: rest) i peso gan sel
            = evalPat P C rest (i / 2) (peso + t.2.1) (gan + P.getD t.2.2 0)
              (sel ++ [t.2.2]) from by simp [evalPat, hbit, hbreak]]
        exact evalPat_infeasible P C rest (i / 2) (peso + t.2.1) (gan + P.getD t.2.2 0)
          (sel ++ [t.2.2]) hwrest (by linarith)
    · have hsb : selectBits i (t :: rest) = selectBits (i / 2) rest := by
        simp [selectBits, hbit]
      rw [hsb] at hlt
      rw [show evalPat P C (t :: rest) i peso gan sel
          = evalPat P C rest (i / 2) peso gan sel from by simp [evalPat, hbit]]
      exact evalPat_infeasible P C rest (i / 2) peso gan sel hwrest hlt

/-- Feasibility as computed with the early exit agrees with feasibility of
the full accumulated weight, for non-negative weights. -/
theorem evalPat_peso_le_iff (P : List ℚ) (C : ℚ) (obj : List Objeto)
    (hw : ∀ t ∈ obj, 0 ≤ t.2.1) (i : ℕ) :
    (evalPat P C obj i 0 0 []).1 ≤ C ↔ pesoOf (selectBits i obj) ≤ C := by
  constructor
  · intro h
    by_contra hc
    push_neg at hc
    have := evalPat_infeasible P C obj i 0 0 [] hw (by linarith)
    linarith
  · intro h
    rw [evalPat_feasible P C obj i 0 0 [] hw (by linarith)]
    simpa using h

/-- Specialisation of the no-early-exit case to zero accumulators. -/
theorem evalPat_zero_feasible (P : List ℚ) (C : ℚ) (obj : List Objeto)
    (hw : ∀ t ∈ obj, 0 ≤ t.2.1) (i : ℕ) (h : pesoOf (selectBits i obj) ≤ C) :
    evalPat P C obj i 0 0 []
      = (pesoOf (selectBits i obj), ganOf P (selectBits i obj), selOf (selectBits i obj)) := by
  rw [evalPat_feasible P C obj i 0 0 [] hw (by linarith)]
  simp

/-- The update value of one outer-loop step is never below the incoming
best value. -/
theorem knapStep_fst_le (P : List ℚ) (C : ℚ) (obj : List Objeto)
    (acc : ℚ × Option (List ℕ)) (i : ℕ) : acc.1 ≤ (knapStep P C obj acc i).1 := by
  by_cases hcond : (evalPat P C obj i 0 0 []).1 ≤ C
      ∧ acc.1 < (evalPat P C obj i 0 0 []).2.1
  · simp only [knapStep, if_pos hcond]
    exact le_of_lt hcond.2
  · simp only [knapStep, if_neg hcond]
    exact le_rfl

/-- A feasible, strictly improving pattern replaces the best pair with its
full value and selection. -/
theorem knapStep_update (P : List ℚ) (C : ℚ) (obj : List Objeto)
    (hw : ∀ t ∈ obj, 0 ≤ t.2.1) (acc : ℚ × Option (List ℕ)) (i : ℕ)
    (hfeas : pesoOf (selectBits i obj) ≤ C)
    (himp : acc.1 < ganOf P (selectBits i obj)) :
    knapStep P C obj acc i
      = (ganOf P (selectBits i obj), some (selOf (selectBits i obj))) := by
  have he := evalPat_zero_feasible P C obj hw i hfeas
  simp [knapStep, he, hfeas, himp]

/-- A feasible but not-improving pattern leaves the best pair unchanged. -/
theorem knapStep_keep_feasible (P : List ℚ) (C : ℚ) (obj : List Objeto)
    (hw : ∀ t ∈ obj, 0 ≤ t.2.1) (acc : ℚ × Option (List ℕ)) (i : ℕ)
    (hfeas : pesoOf (selectBits i obj) ≤ C)
    (himp : ¬ acc.1 < ganOf P (selectBits i obj)) :
    knapStep P C obj acc i = acc := by
  have he := evalPat_zero_feasible P C obj hw i hfeas
  simp [knapStep, he, himp]

/-- An over-capacity pattern leaves the best pair unchanged. -/
theorem knapStep_keep_infeasible (P : List ℚ) (C : ℚ) (obj : List Objeto)
    (hw : ∀ t ∈ obj, 0 ≤ t.2.1) (acc : ℚ × Option (List ℕ)) (i : ℕ)
    (hfeas : ¬ pesoOf (selectBits i obj) ≤ C) :
    knapStep P C obj acc i = acc := by
  have hA : ¬ (evalPat P C obj i 0 0 []).1 ≤ C :=
    fun h => hfeas ((evalPat_peso_le_iff P C obj hw i).mp h)
  simp [knapStep, hA]

/-- Recording invariant of the outer loop, with no sign hypotheses: the
final best pair either is the initial one, or records the value, as summed
from the original value list, and the index selection of some sublist of
the walked triple list. -/
theorem knapFold_recorded (P : List ℚ) (C : ℚ) (obj : List Objeto) :
    ∀ (is : List ℕ) (acc : ℚ × Option (List ℕ)),
    is.foldl (knapStep P C obj) acc = acc
    ∨ ∃ s, s.Sublist obj
        ∧ (is.foldl (knapStep P C obj) acc).1 = ganOf P s
        ∧ (is.foldl (knapStep P C obj) acc).2 = some (selOf s)
  | [], acc => Or.inl rfl
  | i :: is, acc => by
    rw [List.foldl_cons]
    rcases knapFold_recorded P C obj is (knapStep P C obj acc i) with h | h
    · rw [h]
      by_cases hcond : (evalPat P C obj i 0 0 []).1 ≤ C
          ∧ acc.1 < (evalPat P C obj i 0 0 []).2.1
      · right
        obtain ⟨s, hs, heq⟩ := evalPat_sublist P C obj i 0 0 []
        rw [heq] at hcond
        simp only [zero_add, List.nil_append] at hcond
        refine ⟨s, hs, ?_, ?_⟩ <;> simp [knapStep, heq, hcond.1, hcond.2]
      · left
        simp [knapStep, hcond]
    · exact Or.inr h

/-- Main invariant of the outer loop over non-negative-weight triples: the
best value never decreases, bounds the value of every within-capacity
pattern processed, and the final pair either is the initial accumulator or
records a feasible sublist achieving the final (strictly increased)
value. -/
theorem knapFold_spec (P : List ℚ) (C : ℚ) (obj : List Objeto)
    (hw : ∀ t ∈ obj, 0 ≤ t.2.1) :
    ∀ (is : List ℕ) (acc : ℚ × Option (List ℕ)),
    acc.1 ≤ (is.foldl (knapStep P C obj) acc).1
    ∧ (∀ i ∈ is, pesoOf (selectBits i obj) ≤ C →
        ganOf P (selectBits i obj) ≤ (is.foldl (knapStep P C obj) acc).1)
    ∧ (is.foldl (knapStep P C obj) acc = acc
       ∨ ∃ s, s.Sublist obj ∧ pesoOf s ≤ C
           ∧ (is.foldl (knapStep P C obj) acc).1 = ganOf P s
           ∧ (is.foldl (knapStep P C obj) acc).2 = some (selOf s)
           ∧ acc.1 < (is.foldl (knapStep P C obj) acc).1)
  | [], acc => ⟨le_rfl, by simp, Or.inl rfl⟩
  | i :: is, acc => by
    rw [List.foldl_cons]
    obtain ⟨iha, ihb, ihc⟩ := knapFold_spec P C obj hw is (knapStep P C obj acc i)
    have hstep_le : acc.1 ≤ (knapStep P C obj acc i).1 := knapStep_fst_le P C obj acc i
    refine ⟨le_trans hstep_le iha, ?_, ?_⟩
    · intro j hj hpeso
      rcases List.mem_cons.mp hj with rfl | hj'
      · have hj1 : ganOf P (selectBits j obj) ≤ (knapStep P C obj acc j).1 := by
          by_cases himp : acc.1 < ganOf P (selectBits j obj)
          · rw [knapStep_update P C obj hw acc j hpeso himp]
          · rw [knapStep_keep_feasible P C obj hw acc j hpeso himp]
            exact not_lt.mp himp
        exact le_trans hj1 iha
      · exact ihb j hj' hpeso
    · rcases ihc with heq | ⟨s, hs, hps, hg, hsel, hlt⟩
      · rw [heq]
        by_cases hfeas : pesoOf (selectBits i obj) ≤ C
        · by_cases himp : acc.1 < ganOf P (selectBits i obj)
          · right
            rw [knapStep_update P C obj hw acc i hfeas himp]
            exact ⟨selectBits i obj, selectBits_sublist i obj, hfeas, rfl, rfl, himp⟩
          · left
            exact knapStep_keep_feasible P C obj hw acc i hfeas himp
        · left
          exact knapStep_keep_infeasible P C obj hw acc i hfeas
      · exact Or.inr ⟨s, hs, hps, hg, hsel, lt_of_le_of_lt hstep_le hlt⟩

/-- Characterisation of membership in the original triple list. -/
theorem mem_objetosList (P W : List ℚ) (t : Objeto) :
    t ∈ objetosList P W ↔ ∃ i, i < W.length ∧ t = (P.getD i 0, W.getD i 0, i) := by
  constructor
  · intro ht
    obtain ⟨i, hi, rfl⟩ := List.mem_map.mp ht
    exact ⟨i, List.mem_range.mp hi, rfl⟩
  · rintro ⟨i, hi, rfl⟩
    exact List.mem_map.mpr ⟨i, List.mem_range.mpr hi, rfl⟩

/-- The triples carry the index range in original order. -/
theorem selOf_objetosList (P W : List ℚ) : selOf (objetosList P W) = List.range W.length := by
  rw [selOf, objetosList, List.map_map]
  exact List.map_id _

/-- Non-negative weights transfer from `W` to the triples. -/
theorem objetosList_weights_nonneg (P W : List ℚ) (hW : ∀ w ∈ W, 0 ≤ w) :
    ∀ t ∈ objetosList P W, 0 ≤ t.2.1 := by
  intro t ht
  obtain ⟨i, hi, rfl⟩ := (mem_objetosList P W t).mp ht
  show 0 ≤ W.getD i 0
  rw [List.getD_eq_getElem W 0 hi]
  exact hW _ (List.getElem_mem hi)

/-- Positive weights transfer from `W` to the triples. -/
theorem objetosList_weights_pos (P W : List ℚ) (hW : ∀ w ∈ W, 0 < w) :
    ∀ t ∈ objetosList P W, 0 < t.2.1 := by
  intro t ht
  obtain ⟨i, hi, rfl⟩ := (mem_objetosList P W t).mp ht
  show 0 < W.getD i 0
  rw [List.getD_eq_getElem W 0 hi]
  exact hW _ (List.getElem_mem hi)

/-- The ranking fails exactly when some weight is zero. -/
theorem rank_eq_none_iff (P W : List ℚ) :
    rank P W = none ↔ ∃ t ∈ objetosList P W, t.2.1 = 0 := by
  by_cases hz : ∃ t ∈ objetosList P W, t.2.1 = 0
  · simp [rank, hz]
  · simp [rank, hz]

/-- A successful ranking returns a permutation of the original triples. -/
theorem rank_some_perm (P W : List ℚ) (obj : List Objeto) (h : rank P W = some obj) :
    obj.Perm (objetosList P W) := by
  rw [rank] at h
  split at h
  · exact absurd h (by simp)
  · injection h with h'
    rw [← h']
    exact List.perm_insertionSort razonDesc (objetosList P W)

/-- Destructor for a successful end-to-end run. -/
theorem knapSolve_some_elim (P W : List ℚ) (C : ℚ) (res : ℚ × Option (List ℕ))
    (h : knapSolve P W C = some res) :
    ∃ obj, rank P W = some obj ∧ obj.Perm (objetosList P W) ∧ solveOn P C obj = res := by
  rw [knapSolve] at h
  cases hrank : rank P W with
  | none =>
    rw [hrank] at h
    simp at h
  | some obj =>
    rw [hrank] at h
    simp only [Option.map_some', Option.some.injEq] at h
    exact ⟨obj, rfl, rank_some_perm P W obj hrank, h⟩

/-- A zero weight among the triples is a zero entry of `W` and back. -/
theorem exists_zero_weight_iff (P W : List ℚ) :
    (∃ t ∈ objetosList P W, t.2.1 = 0) ↔ ∃ w ∈ W, w = 0 := by
  constructor
  · rintro ⟨t, ht, h0⟩
    obtain ⟨i, hi, rfl⟩ := (mem_objetosList P W t).mp ht
    refine ⟨W.getD i 0, ?_, h0⟩
    rw [List.getD_eq_getElem W 0 hi]
    exact List.getElem_mem hi
  · rintro ⟨w, hw, h0⟩
    obtain ⟨i, hi, hgi⟩ := List.mem_iff_getElem.mp hw
    refine ⟨(P.getD i 0, W.getD i 0, i), (mem_objetosList P W _).mpr ⟨i, hi, rfl⟩, ?_⟩
    show W.getD i 0 = 0
    rw [List.getD_eq_getElem W 0 hi, hgi, h0]

/-- Aggregate weight is invariant under permutation of the triples. -/
theorem pesoOf_perm (s u : List Objeto) (h : s.Perm u) : pesoOf s = pesoOf u := by
  rw [pesoOf, pesoOf]
  exact (h.map fun t => t.2.1).sum_eq

/-- Aggregate value is invariant under permutation of the triples. -/
theorem ganOf_perm (P : List ℚ) (s u : List Objeto) (h : s.Perm u) : ganOf P s = ganOf P u := by
  rw [ganOf, ganOf]
  exact (h.map fun t => P.getD t.2.2 0).sum_eq

/-- Reading the recorded selection back through `W` and `P` recovers the
aggregate weight and value of the selected triples, for any selection taken
from a permutation of the well-formed triple list. -/
theorem sel_sums (P W : List ℚ) (obj s : List Objeto)
    (hperm : obj.Perm (objetosList P W)) (hs : s.Sublist obj) :
    ((selOf s).map fun j => W.getD j 0).sum = pesoOf s
    ∧ ((selOf s).map fun j => P.getD j 0).sum = ganOf P s := by
  have hwf : ∀ t ∈ s, t.2.1 = W.getD t.2.2 0 := by
    intro t ht
    obtain ⟨i, _, rfl⟩ := (mem_objetosList P W t).mp (hperm.subset (hs.subset ht))
    rfl
  constructor
  · rw [selOf, List.map_map, pesoOf]
    congr 1
    exact List.map_congr_left fun t ht => ((hwf t ht).symm)
  · rw [selOf, List.map_map, ganOf]
    rfl

/-- Characterisation of one full enumeration run over a non-negative-weight
triple list: the best value is non-negative, bounds the value of every
within-capacity sub-multiset of the triples, and the final pair is either
the untouched initial `(0, None)` or a recorded feasible selection
achieving a strictly positive best value. -/
theorem solveOn_char (P : List ℚ) (C : ℚ) (obj : List Objeto)
    (hw : ∀ t ∈ obj, 0 ≤ t.2.1) :
    0 ≤ (solveOn P C obj).1
    ∧ (∀ s, s.Subperm obj → pesoOf s ≤ C → ganOf P s ≤ (solveOn P C obj).1)
    ∧ ((solveOn P C obj).1 = 0 ∧ (solveOn P C obj).2 = none
       ∨ ∃ s, s.Sublist obj ∧ pesoOf s ≤ C ∧ (solveOn P C obj).1 = ganOf P s
           ∧ (solveOn P C obj).2 = some (selOf s) ∧ 0 < (solveOn P C obj).1) := by
  obtain ⟨hmono, hbound, hrec⟩ :=
    knapFold_spec P C obj hw (List.range (2 ^ obj.length)) (0, none)
  rw [solveOn]
  refine ⟨hmono, ?_, ?_⟩
  · intro s hsp hps
    obtain ⟨u, hup, hus⟩ := hsp
    obtain ⟨i, hilt, hisel⟩ := sublist_eq_selectBits obj u hus
    have hpu : pesoOf (selectBits i obj) ≤ C := by
      rw [hisel, ← pesoOf_perm s u hup.symm]
      exact hps
    have := hbound i (List.mem_range.mpr hilt) hpu
    rw [hisel, ← ganOf_perm P s u hup.symm] at this
    exact this
  · rcases hrec with heq | ⟨s, hs, hps, hg, hsel, hlt⟩
    · left
      rw [heq]
      exact ⟨rfl, rfl⟩
    · exact Or.inr ⟨s, hs, hps, hg, hsel, hlt⟩

/-- C10: whenever the enumeration finishes with a recorded best
combination, the recorded best value is exactly the sum of the original
values `P[j]` over the recorded original indices, and those indices are
pairwise distinct and all lie below `N = len(W)`. -/
theorem knapSolve_recorded_consistent (P W : List ℚ) (C : ℚ) (g : ℚ) (sel : List ℕ)
    (hrun : knapSolve P W C = some (g, some sel)) :
    g = (sel.map fun j => P.getD j 0).sum
    ∧ sel.Nodup
    ∧ ∀ j ∈ sel, j < W.length := by
  obtain ⟨obj, hrank, hperm, hsolve⟩ := knapSolve_some_elim P W C (g, some sel) hrun
  rw [solveOn] at hsolve
  rcases knapFold_recorded P C obj (List.range (2 ^ obj.length)) (0, none)
    with h | ⟨s, hs, hg, hsel⟩
  · rw [hsolve] at h
    simp at h
  · rw [hsolve] at hg hsel
    simp only [Option.some.injEq] at hsel
    have hselOf : sel = selOf s := hsel
    have hsub : (selOf s).Subperm (List.range W.length) := by
      have h1 : (selOf s).Sublist (selOf obj) := by
        rw [selOf, selOf]
        exact hs.map fun t => t.2.2
      have h2 : (selOf obj).Perm (selOf (objetosList P W)) := by
        rw [selOf, selOf]
        exact hperm.map fun t => t.2.2
      rw [selOf_objetosList] at h2
      exact h1.subperm.trans h2.subperm
    refine ⟨?_, ?_, ?_⟩
    · rw [show g = ganOf P s from hg, hselOf, selOf, List.map_map, ganOf]
      rfl
    · rw [hselOf]
      obtain ⟨u, hu_perm, hu_sub⟩ := hsub
      exact hu_perm.nodup_iff.mp (List.Nodup.sublist hu_sub (List.nodup_range _))
    · intro j hj
      rw [hselOf] at hj
      exact List.mem_range.mp (hsub.subset hj)

/-- Witness for C10 at a one-item instance. -/
theorem knapSolve_recorded_consistent_witness :
    knapSolve [1] [1] 1 = some (1, some [0])
    ∧ ((1 : ℚ) = (([0] : List ℕ).map fun j => ([1] : List ℚ).getD j 0).sum
      ∧ ([0] : List ℕ).Nodup
      ∧ ∀ j ∈ ([0] : List ℕ), j < ([1] : List ℚ).length) := by
  have hrun : knapSolve [1] [1] 1 = some (1, some [0]) := by
    norm_num [knapSolve, rank, rankedObjetos, objetosList, razonDesc, solveOn, knapStep,
      evalPat, List.range, List.range.loop, List.insertionSort]
  exact ⟨hrun, knapSolve_recorded_consistent [1] [1] 1 1 [0] hrun⟩

/-- C2: whenever the Subset Enumerator produces a result, the recorded
selection (read as the empty selection when nothing was recorded) fits
within the capacity and achieves the returned best value, and that value
bounds the aggregate value of every subset of the items whose aggregate
weight is within the capacity.  Subsets of items are the sublists `J` of
`range N` of original indices. -/
theorem knapSolve_optimal (P W : List ℚ) (C : ℚ)
    (hW : ∀ w ∈ W, 0 ≤ w) (hP : ∀ p ∈ P, 0 ≤ p) (hC : 0 ≤ C)
    (g : ℚ) (mc : Option (List ℕ))
    (hrun : knapSolve P W C = some (g, mc)) :
    ((mc.getD []).map fun j => W.getD j 0).sum ≤ C
    ∧ ((mc.getD []).map fun j => P.getD j 0).sum = g
    ∧ ∀ J : List ℕ, J.Sublist (List.range W.length) →
        (J.map fun j => W.getD j 0).sum ≤ C →
        (J.map fun j => P.getD j 0).sum ≤ g := by
  obtain ⟨obj, hrank, hperm, hsolve⟩ := knapSolve_some_elim P W C (g, mc) hrun
  have hw : ∀ t ∈ obj, 0 ≤ t.2.1 := fun t ht =>
    objetosList_weights_nonneg P W hW t (hperm.subset ht)
  obtain ⟨hpos, hbound, hrec⟩ := solveOn_char P C obj hw
  have hopt : ∀ J : List ℕ, J.Sublist (List.range W.length) →
      (J.map fun j => W.getD j 0).sum ≤ C → (J.map fun j => P.getD j 0).sum ≤ g := by
    intro J hJ hJw
    have htJ : (J.map fun j => ((P.getD j 0 : ℚ), (W.getD j 0 : ℚ), j)).Sublist
        (objetosList P W) := by
      rw [objetosList]
      exact hJ.map _
    have hsp : (J.map fun j => ((P.getD j 0 : ℚ), (W.getD j 0 : ℚ), j)).Subperm obj :=
      htJ.subperm.trans hperm.symm.subperm
    have hWs : pesoOf (J.map fun j => ((P.getD j 0 : ℚ), (W.getD j 0 : ℚ), j))
        = (J.map fun j => W.getD j 0).sum := by
      rw [pesoOf, List.map_map]
      rfl
    have hPs : ganOf P (J.map fun j => ((P.getD j 0 : ℚ), (W.getD j 0 : ℚ), j))
        = (J.map fun j => P.getD j 0).sum := by
      rw [ganOf, List.map_map]
      rfl
    have hb := hbound _ hsp (by rw [hWs]; exact hJw)
    rw [hPs, hsolve] at hb
    exact hb
  rcases hrec with ⟨hg0, hmc⟩ | ⟨s, hs, hps, hg, hsel, _⟩
  · have hgg : g = 0 := by rw [hsolve] at hg0; exact hg0
    have hmcn : mc = none := by rw [hsolve] at hmc; exact hmc
    refine ⟨?_, ?_, hopt⟩
    · rw [hmcn]
      simpa using hC
    · rw [hmcn, hgg]
      simp
  · have hgg : g = ganOf P s := by rw [hsolve] at hg; exact hg
    have hmc' : mc = some (selOf s) := by rw [hsolve] at hsel; exact hsel
    refine ⟨?_, ?_, hopt⟩
    · rw [hmc']
      simp only [Option.getD_some]
      rw [(sel_sums P W obj s hperm hs).1]
      exact hps
    · rw [hmc', hgg]
      simp only [Option.getD_some]
      exact (sel_sums P W obj s hperm hs).2

/-- Witness for C2 at a one-item instance. -/
theorem knapSolve_optimal_witness :
    ((∀ w ∈ ([1] : List ℚ), 0 ≤ w) ∧ (∀ p ∈ ([1] : List ℚ), 0 ≤ p) ∧ ((0 : ℚ) ≤ 1)
      ∧ knapSolve [1] [1] 1 = some (1, some [0]))
    ∧ ((((some [0] : Option (List ℕ)).getD []).map fun j => ([1] : List ℚ).getD j 0).sum ≤ 1
      ∧ (((some [0] : Option (List ℕ)).getD []).map fun j => ([1] : List ℚ).getD j 0).sum = 1
      ∧ ∀ J : List ℕ, J.Sublist (List.range ([1] : List ℚ).length) →
          (J.map fun j => ([1] : List ℚ).getD j 0).sum ≤ 1 →
          (J.map fun j => ([1] : List ℚ).getD j 0).sum ≤ 1) := by
  have h1 : ∀ w ∈ ([1] : List ℚ), 0 ≤ w := by norm_num
  have hC : (0 : ℚ) ≤ 1 := by norm_num
  have hrun : knapSolve [1] [1] 1 = some (1, some [0]) := by
    norm_num [knapSolve, rank, rankedObjetos, objetosList, razonDesc, solveOn, knapStep,
      evalPat, List.range, List.range.loop, List.insertionSort]
  exact ⟨⟨h1, h1, hC, hrun⟩, knapSolve_optimal [1] [1] 1 h1 h1 hC 1 (some [0]) hrun⟩

/-- One outer-loop step computes the same update whether or not the inner
loop abandons early, for non-negative weights. -/
theorem knapStep_eq_full (P : List ℚ) (C : ℚ) (obj : List Objeto)
    (hw : ∀ t ∈ obj, 0 ≤ t.2.1) (acc : ℚ × Option (List ℕ)) (i : ℕ) :
    knapStep P C obj acc i = knapStepFull P C obj acc i := by
  by_cases hfeas : pesoOf (selectBits i obj) ≤ C
  · by_cases himp : acc.1 < ganOf P (selectBits i obj)
    · rw [knapStep_update P C obj hw acc i hfeas himp, knapStepFull, if_pos ⟨hfeas, himp⟩]
    · rw [knapStep_keep_feasible P C obj hw acc i hfeas himp, knapStepFull,
        if_neg (fun h => himp h.2)]
  · rw [knapStep_keep_infeasible P C obj hw acc i hfeas, knapStepFull,
      if_neg (fun h => hfeas h.1)]

/-- The whole enumeration is unchanged by the early exit. -/
theorem solveOn_eq_full (P : List ℚ) (C : ℚ) (obj : List Objeto)
    (hw : ∀ t ∈ obj, 0 ≤ t.2.1) : solveOn P C obj = solveOnFull P C obj := by
  rw [solveOn, solveOnFull]
  have hsteps : knapStep P C obj = knapStepFull P C obj := by
    funext acc i
    exact knapStep_eq_full P C obj hw acc i
  rw [hsteps]

/-- C5: with non-negative weights, the early-abandoning evaluation accepts
a pattern exactly when the full accumulated weight of its set bits is
within the capacity; on accepted patterns it returns the full accumulation,
and the whole loop — best value and recorded selection — is identical to
the loop with no early exit. -/
theorem knapsack_early_exit_equiv (P : List ℚ) (C : ℚ) (obj : List Objeto)
    (hw : ∀ t ∈ obj, 0 ≤ t.2.1) :
    (∀ i, ((evalPat P C obj i 0 0 []).1 ≤ C ↔ pesoOf (selectBits i obj) ≤ C))
    ∧ (∀ i, pesoOf (selectBits i obj) ≤ C →
        evalPat P C obj i 0 0 []
          = (pesoOf (selectBits i obj), ganOf P (selectBits i obj),
             selOf (selectBits i obj)))
    ∧ solveOn P C obj = solveOnFull P C obj :=
  ⟨fun i => evalPat_peso_le_iff P C obj hw i,
   fun i h => evalPat_zero_feasible P C obj hw i h,
   solveOn_eq_full P C obj hw⟩

/-- Witness for C5 at a concrete one-triple list. -/
theorem knapsack_early_exit_equiv_witness :
    (∀ t ∈ ([(1, 1, 0)] : List Objeto), 0 ≤ t.2.1)
    ∧ ((∀ i, ((evalPat [1] 1 [(1, 1, 0)] i 0 0 []).1 ≤ 1
          ↔ pesoOf (selectBits i [(1, 1, 0)]) ≤ 1))
      ∧ (∀ i, pesoOf (selectBits i [(1, 1, 0)]) ≤ 1 →
          evalPat [1] 1 [(1, 1, 0)] i 0 0 []
            = (pesoOf (selectBits i [(1, 1, 0)]), ganOf [1] (selectBits i [(1, 1, 0)]),
               selOf (selectBits i [(1, 1, 0)])))
      ∧ solveOn [1] 1 [(1, 1, 0)] = solveOnFull [1] 1 [(1, 1, 0)]) := by
  have hw : ∀ t ∈ ([(1, 1, 0)] : List Objeto), 0 ≤ t.2.1 := by norm_num
  exact ⟨hw, knapsack_early_exit_equiv [1] 1 [(1, 1, 0)] hw⟩

/-- C4: running the enumeration over the ratio-sorted item list yields the
same best value as running the same `2^N` patterns over the items in their
original order, and in both runs any recorded selection is feasible and
achieves the run's best value: the ranking step does not affect
correctness. -/
theorem knapsack_rank_preserves_result (P W : List ℚ) (C : ℚ) (hW : ∀ w ∈ W, 0 < w) :
    (solveOn P C (rankedObjetos P W)).1 = (solveOn P C (objetosList P W)).1
    ∧ ((solveOn P C (rankedObjetos P W)).2 = none
        ↔ (solveOn P C (objetosList P W)).2 = none)
    ∧ (∀ sel, (solveOn P C (rankedObjetos P W)).2 = some sel →
        (sel.map fun j => W.getD j 0).sum ≤ C
        ∧ (sel.map fun j => P.getD j 0).sum = (solveOn P C (rankedObjetos P W)).1)
    ∧ (∀ sel, (solveOn P C (objetosList P W)).2 = some sel →
        (sel.map fun j => W.getD j 0).sum ≤ C
        ∧ (sel.map fun j => P.getD j 0).sum = (solveOn P C (objetosList P W)).1) := by
  have hperm : (rankedObjetos P W).Perm (objetosList P W) :=
    List.perm_insertionSort razonDesc (objetosList P W)
  have hw2 : ∀ t ∈ objetosList P W, 0 ≤ t.2.1 := fun t ht =>
    le_of_lt (objetosList_weights_pos P W hW t ht)
  have hw1 : ∀ t ∈ rankedObjetos P W, 0 ≤ t.2.1 := fun t ht => hw2 t (hperm.subset ht)
  obtain ⟨hpos1, hbound1, hrec1⟩ := solveOn_char P C (rankedObjetos P W) hw1
  obtain ⟨hpos2, hbound2, hrec2⟩ := solveOn_char P C (objetosList P W) hw2
  have hle1 : (solveOn P C (rankedObjetos P W)).1 ≤ (solveOn P C (objetosList P W)).1 := by
    rcases hrec1 with ⟨h0, _⟩ | ⟨s, hs, hps, hg, _, _⟩
    · rw [h0]
      exact hpos2
    · rw [hg]
      exact hbound2 s (hs.subperm.trans hperm.subperm) hps
  have hle2 : (solveOn P C (objetosList P W)).1 ≤ (solveOn P C (rankedObjetos P W)).1 := by
    rcases hrec2 with ⟨h0, _⟩ | ⟨s, hs, hps, hg, _, _⟩
    · rw [h0]
      exact hpos1
    · rw [hg]
      exact hbound1 s (hs.subperm.trans hperm.symm.subperm) hps
  have heq := le_antisymm hle1 hle2
  have hniff1 : (solveOn P C (rankedObjetos P W)).2 = none
      ↔ (solveOn P C (rankedObjetos P W)).1 = 0 := by
    constructor
    · intro hn
      rcases hrec1 with ⟨h0, _⟩ | ⟨s, _, _, _, hsel, _⟩
      · exact h0
      · rw [hn] at hsel
        exact absurd hsel (by simp)
    · intro h0
      rcases hrec1 with ⟨_, hn⟩ | ⟨s, _, _, _, _, hpos⟩
      · exact hn
      · rw [h0] at hpos
        exact absurd hpos (lt_irrefl 0)
  have hniff2 : (solveOn P C (objetosList P W)).2 = none
      ↔ (solveOn P C (objetosList P W)).1 = 0 := by
    constructor
    · intro hn
      rcases hrec2 with ⟨h0, _⟩ | ⟨s, _, _, _, hsel, _⟩
      · exact h0
      · rw [hn] at hsel
        exact absurd hsel (by simp)
    · intro h0
      rcases hrec2 with ⟨_, hn⟩ | ⟨s, _, _, _, _, hpos⟩
      · exact hn
      · rw [h0] at hpos
        exact absurd hpos (lt_irrefl 0)
  refine ⟨heq, by rw [hniff1, hniff2, heq], ?_, ?_⟩
  · intro sel hsel
    rcases hrec1 with ⟨_, hn⟩ | ⟨s, hs, hps, hg, hselq, _⟩
    · rw [hn] at hsel
      exact absurd hsel.symm (by simp)
    · rw [hsel] at hselq
      injection hselq with hseleq
      subst hseleq
      constructor
      · rw [(sel_sums P W (rankedObjetos P W) s hperm hs).1]
        exact hps
      · rw [(sel_sums P W (rankedObjetos P W) s hperm hs).2]
        exact hg.symm
  · intro sel hsel
    rcases hrec2 with ⟨_, hn⟩ | ⟨s, hs, hps, hg, hselq, _⟩
    · rw [hn] at hsel
      exact absurd hsel.symm (by simp)
    · rw [hsel] at hselq
      injection hselq with hseleq
      subst hseleq
      constructor
      · rw [(sel_sums P W (objetosList P W) s (List.Perm.refl _) hs).1]
        exact hps
      · rw [(sel_sums P W (objetosList P W) s (List.Perm.refl _) hs).2]
        exact hg.symm

/-- Witness for C4 at a two-item instance with distinct ratios. -/
theorem knapsack_rank_preserves_result_witness :
    (∀ w ∈ ([1, 2] : List ℚ), 0 < w)
    ∧ ((solveOn [3, 5] 4 (rankedObjetos [3, 5] [1, 2])).1
        = (solveOn [3, 5] 4 (objetosList [3, 5] [1, 2])).1
      ∧ ((solveOn [3, 5] 4 (rankedObjetos [3, 5] [1, 2])).2 = none
          ↔ (solveOn [3, 5] 4 (objetosList [3, 5] [1, 2])).2 = none)
      ∧ (∀ sel, (solveOn [3, 5] 4 (rankedObjetos [3, 5] [1, 2])).2 = some sel →
          (sel.map fun j => ([1, 2] : List ℚ).getD j 0).sum ≤ 4
          ∧ (sel.map fun j => ([3, 5] : List ℚ).getD j 0).sum
              = (solveOn [3, 5] 4 (rankedObjetos [3, 5] [1, 2])).1)
      ∧ (∀ sel, (solveOn [3, 5] 4 (objetosList [3, 5] [1, 2])).2 = some sel →
          (sel.map fun j => ([1, 2] : List ℚ).getD j 0).sum ≤ 4
          ∧ (sel.map fun j => ([3, 5] : List ℚ).getD j 0).sum
              = (solveOn [3, 5] 4 (objetosList [3, 5] [1, 2])).1)) := by
  have hW : ∀ w ∈ ([1, 2] : List ℚ), 0 < w := by norm_num
  exact ⟨hW, knapsack_rank_preserves_result [3, 5] [1, 2] 4 hW⟩

/-- C8 (amended): the ranking step has no explicit guard; it divides by
every weight, so the whole solver fails — with Python's unstructured
`ZeroDivisionError`, not a structured InvalidInputError — exactly when some
item weight is zero.  Negative weights are not rejected at all. -/
theorem knapSolve_none_iff_zero_weight (P W : List ℚ) (C : ℚ) :
    knapSolve P W C = none ↔ ∃ w ∈ W, w = 0 := by
  rw [knapSolve, Option.map_eq_none', rank_eq_none_iff, exists_zero_weight_iff]

/-- C8 counterexample: an item of negative weight is not rejected — the
solver runs to completion and returns a result, refuting the claim that
ranking fails on every zero-or-negative weight. -/
theorem knapSolve_negative_weight_cex :
    knapSolve [5] [-2] 8 = some (5, some [0]) ∧ knapSolve [5] [-2] 8 ≠ none := by
  have h : knapSolve [5] [-2] 8 = some (5, some [0]) := by
    norm_num [knapSolve, rank, rankedObjetos, objetosList, razonDesc, solveOn, knapStep,
      evalPat, List.range, List.range.loop, List.insertionSort]
  refine ⟨h, ?_⟩
  rw [h]
  simp

/-- C9 (amended): for zero items, and likewise for capacity 0 with all
weights positive, the enumeration ends with best value 0 and **no recorded
combination** (`mejor_combinacion` stays `None`, not the empty list). -/
theorem knapSolve_edge_cases (P W : List ℚ) (C : ℚ) :
    (W = [] → knapSolve P W C = some (0, none))
    ∧ ((∀ w ∈ W, 0 < w) → knapSolve P W 0 = some (0, none)) := by
  constructor
  · rintro rfl
    norm_num [knapSolve, rank, rankedObjetos, objetosList, solveOn, knapStep, evalPat,
      List.range, List.range.loop, List.insertionSort]
  · intro hWpos
    have hz : ¬ ∃ t ∈ objetosList P W, t.2.1 = 0 := by
      rintro ⟨t, ht, h0⟩
      exact absurd h0 (ne_of_gt (objetosList_weights_pos P W hWpos t ht))
    rw [knapSolve, rank, if_neg hz, Option.map_some']
    have hw1 : ∀ t ∈ rankedObjetos P W, 0 < t.2.1 := fun t ht =>
      objetosList_weights_pos P W hWpos t
        ((List.perm_insertionSort razonDesc (objetosList P W)).subset ht)
    obtain ⟨hpos, _, hrec⟩ := solveOn_char P 0 (rankedObjetos P W)
      (fun t ht => le_of_lt (hw1 t ht))
    rcases hrec with ⟨h0, hn⟩ | ⟨s, hs, hps, hg, hsel, hlt⟩
    · have : solveOn P 0 (rankedObjetos P W) = (0, none) := by
        rw [Prod.ext_iff]
        exact ⟨h0, hn⟩
      rw [this]
    · exfalso
      cases s with
      | nil =>
        rw [hg] at hlt
        simp at hlt
      | cons t s' =>
        have h1 : 0 < t.2.1 := hw1 t (hs.subset (List.mem_cons_self t s'))
        have h2 : 0 ≤ pesoOf s' := pesoOf_nonneg s' (fun u hu =>
          le_of_lt (hw1 u (hs.subset (List.mem_cons_of_mem t hu))))
        rw [pesoOf_cons] at hps
        linarith

/-- Witness for the amended C9: zero items, and capacity 0 with a positive
weight. -/
theorem knapSolve_edge_cases_witness :
    knapSolve [5] [] 3 = some (0, none) ∧ knapSolve [5] [2] 0 = some (0, none) :=
  ⟨(knapSolve_edge_cases [5] [] 3).1 rfl,
   (knapSolve_edge_cases [5] [2] 0).2 (by norm_num)⟩

/-- C9 counterexample: with zero items the code leaves `mejor_combinacion`
as `None`; it does not return the empty selection the claim promises. -/
theorem knapSolve_empty_items_cex :
    knapSolve [] [] 5 = some (0, none) ∧ knapSolve [] [] 5 ≠ some (0, some []) := by
  have h : knapSolve [] [] 5 = some (0, none) := by
    norm_num [knapSolve, rank, rankedObjetos, objetosList, solveOn, knapStep, evalPat,
      List.range, List.range.loop, List.insertionSort]
  refine ⟨h, ?_⟩
  rw [h]
  simp

/-- Witness for the amended C8: a zero-weight item makes the solver fail. -/
theorem knapSolve_none_iff_zero_weight_witness :
    knapSolve [1] [0] 2 = none :=
  (knapSolve_none_iff_zero_weight [1] [0] 2).mpr ⟨0, by norm_num⟩
